import Mathlib

/-!
Verification of the orchestration-and-parsing core of cmdstanpy.

The repository snapshot under consideration ships only documentation
(notebooks and API reference); the implementation of the core itself
(RunSet, CmdStanMCMC, the Stan CSV machinery) is not part of the
snapshot.  The definitions below are therefore modelled from the
specification of that core, faithful to its words, and the theorems
settle the specification claims against this model.
-/

namespace CmdStanPy

/-- Modelled from the spec: a value read from a Stan CSV data row.
The implementation stores IEEE doubles; here a value is modelled as a
tagged term: an exact finite value, not-a-number, or a signed infinity,
which is what the special literal tokens of the file format denote. -/
inductive FVal where
  | finite (q : ℚ)
  | nan
  | inf
  | neginf
deriving DecidableEq

/-- Numeral character for a decimal digit. -/
def digitChar (d : Nat) : Char :=
  match d with
  | 0 => '0'
  | 1 => '1'
  | 2 => '2'
  | 3 => '3'
  | 4 => '4'
  | 5 => '5'
  | 6 => '6'
  | 7 => '7'
  | 8 => '8'
  | _ => '9'

/-- Decimal digit value of a character, when it is a digit. -/
def digitVal (c : Char) : Option Nat :=
  if 48 ≤ c.toNat ∧ c.toNat ≤ 57 then some (c.toNat - 48) else none

/-- Render a natural number as decimal digit characters, most significant
digit first (empty for zero; see natLit). -/
def natChars (n : Nat) : List Char := ((Nat.digits 10 n).reverse).map digitChar

/-- Decimal numeral for a natural number. -/
def natLit (n : Nat) : List Char := if n = 0 then ['0'] else natChars n

/-- Map a fallible function over a list, failing when any element fails. -/
def optMap (f : α → Option β) : List α → Option (List β)
  | [] => some []
  | a :: as => do
      let b ← f a
      let bs ← optMap f as
      pure (b :: bs)

/-- Digit values of a nonempty all-digit field. -/
def fieldDigits (cs : List Char) : Option (List Nat) :=
  if cs.isEmpty then none else optMap digitVal cs

/-- Natural number denoted by a digit list, most significant first. -/
def natFromDigits (ds : List Nat) : Nat := ds.foldl (fun a d => 10 * a + d) 0

theorem digitVal_digitChar {d : Nat} (h : d < 10) : digitVal (digitChar d) = some d := by
  interval_cases d <;> decide

theorem digitChar_toNat {d : Nat} (h : d < 10) :
    48 ≤ (digitChar d).toNat ∧ (digitChar d).toNat ≤ 57 := by
  interval_cases d <;> decide

theorem optMap_digitVal_digitChar {ds : List Nat} (h : ∀ d ∈ ds, d < 10) :
    optMap digitVal (ds.map digitChar) = some ds := by
  induction ds with
  | nil => rfl
  | cons d ds ih =>
      have hd : d < 10 := h d (List.mem_cons_self d ds)
      have hds : ∀ x ∈ ds, x < 10 := fun x hx => h x (List.mem_cons_of_mem d hx)
      simp [optMap, digitVal_digitChar hd, ih hds]

theorem foldl_digits_reverse (L : List Nat) (a : Nat) :
    L.reverse.foldl (fun x d => 10 * x + d) a = Nat.ofDigits 10 L + a * 10 ^ L.length := by
  induction L generalizing a with
  | nil => simp [Nat.ofDigits]
  | cons d L ih =>
      simp only [List.reverse_cons, List.foldl_append, List.foldl_cons, List.foldl_nil,
        Nat.ofDigits_cons, List.length_cons, ih]
      ring

theorem natFromDigits_digits (n : Nat) :
    natFromDigits ((Nat.digits 10 n).reverse) = n := by
  have h := foldl_digits_reverse (Nat.digits 10 n) 0
  simpa [natFromDigits, Nat.ofDigits_digits] using h

theorem digits_lt_ten (n : Nat) : ∀ d ∈ (Nat.digits 10 n).reverse, d < 10 := by
  intro d hd
  rw [List.mem_reverse] at hd
  exact Nat.digits_lt_base (by norm_num) hd

theorem natChars_ne_nil {n : Nat} (h : n ≠ 0) : natChars n ≠ [] := by
  simp only [natChars, ne_eq, List.map_eq_nil_iff, List.reverse_eq_nil_iff]
  exact Nat.digits_ne_nil_iff_ne_zero.mpr h

theorem fieldDigits_natLit (n : Nat) :
    ∃ ds, fieldDigits (natLit n) = some ds ∧ natFromDigits ds = n := by
  by_cases h : n = 0
  · subst h
    exact ⟨[0], by decide, rfl⟩
  · refine ⟨(Nat.digits 10 n).reverse, ?_, natFromDigits_digits n⟩
    have hne : natChars n ≠ [] := natChars_ne_nil h
    simp only [natLit, if_neg h, fieldDigits, List.isEmpty_iff, natChars]
    rw [if_neg (by simpa [natChars] using hne)]
    exact optMap_digitVal_digitChar (digits_lt_ten n)

/-- The first character of a rendered numeral is a digit character. -/
theorem natLit_head (n : Nat) :
    ∃ c cs, natLit n = c :: cs ∧ 48 ≤ c.toNat ∧ c.toNat ≤ 57 := by
  by_cases h : n = 0
  · subst h
    exact ⟨'0', [], rfl, by decide, by decide⟩
  · have hne : natChars n ≠ [] := natChars_ne_nil h
    rcases hcs : natChars n with _ | ⟨c, cs⟩
    · exact absurd hcs hne
    · refine ⟨c, cs, by simp [natLit, if_neg h, hcs], ?_⟩
      have : c ∈ natChars n := by rw [hcs]; exact List.mem_cons_self c cs
      simp only [natChars, List.mem_map] at this
      obtain ⟨d, hd, hdc⟩ := this
      have hlt : d < 10 := digits_lt_ten n d hd
      rw [← hdc]
      exact digitChar_toNat hlt

/-- Exact value of a fraction-digit list read after the decimal point. -/
def fracVal (ds : List Nat) : ℚ := ds.foldr (fun d a => ((d : ℚ) + a) / 10) 0

/-- Modelled from the spec: parse an unsigned decimal field (integer part,
optional fraction part) into an exact value. -/
def parseUnsigned (cs : List Char) : Option ℚ :=
  match cs.dropWhile (fun c => c ≠ '.') with
  | [] => (fieldDigits cs).map (fun ds => (natFromDigits ds : ℚ))
  | _ :: fcs => do
      let ids ← fieldDigits (cs.takeWhile (fun c => c ≠ '.'))
      let fds ← fieldDigits fcs
      pure ((natFromDigits ids : ℚ) + fracVal fds)

/-- Modelled from the spec: convert one field of a data row to a value.
The special literal tokens for not-a-number and the infinities map to the
corresponding tagged values and never to a failure; every other field must
be a signed decimal numeral. -/
def parseFVal (cs : List Char) : Option FVal :=
  if cs = "nan".data ∨ cs = "NaN".data then some FVal.nan
  else if cs = "inf".data ∨ cs = "Inf".data then some FVal.inf
  else if cs = "-inf".data ∨ cs = "-Inf".data then some FVal.neginf
  else if cs.head? = some '-' then (parseUnsigned cs.tail).map (fun q => FVal.finite (-q))
  else (parseUnsigned cs).map FVal.finite

/-- A finite decimal: sign, integer part, fraction digits. -/
structure Dec where
  neg : Bool
  ip : Nat
  fp : List Nat
deriving DecidableEq

/-- Well-formedness of a decimal: every fraction digit is a digit. -/
def Dec.wf (d : Dec) : Prop := ∀ x ∈ d.fp, x < 10

instance (d : Dec) : Decidable d.wf := by
  unfold Dec.wf
  infer_instance

/-- Exact rational value of a decimal. -/
def Dec.val (d : Dec) : ℚ :=
  (if d.neg then (-1 : ℚ) else 1) * ((d.ip : ℚ) + fracVal d.fp)

/-- Text of a decimal as written in a data row. -/
def Dec.render (d : Dec) : List Char :=
  (if d.neg then ['-'] else []) ++ natLit d.ip ++
    (if d.fp.isEmpty then [] else '.' :: d.fp.map digitChar)

theorem takeWhile_append_of_all {p : Char → Bool} {a b : List Char}
    (h : ∀ c ∈ a, p c) : (a ++ b).takeWhile p = a ++ b.takeWhile p := by
  induction a with
  | nil => rfl
  | cons c a ih =>
      have hc : p c := h c (List.mem_cons_self c a)
      simp [List.takeWhile_cons, hc, ih (fun x hx => h x (List.mem_cons_of_mem c hx))]

theorem dropWhile_append_of_all {p : Char → Bool} {a b : List Char}
    (h : ∀ c ∈ a, p c) : (a ++ b).dropWhile p = b.dropWhile p := by
  induction a with
  | nil => rfl
  | cons c a ih =>
      have hc : p c := h c (List.mem_cons_self c a)
      simp [List.dropWhile_cons, hc, ih (fun x hx => h x (List.mem_cons_of_mem c hx))]

theorem takeWhile_of_all {p : Char → Bool} {a : List Char}
    (h : ∀ c ∈ a, p c) : a.takeWhile p = a := by
  have h2 := @takeWhile_append_of_all p a [] h
  simpa using h2

theorem dropWhile_of_all {p : Char → Bool} {a : List Char}
    (h : ∀ c ∈ a, p c) : a.dropWhile p = [] := by
  have h2 := @dropWhile_append_of_all p a [] h
  simpa using h2

theorem natLit_chars (n : Nat) :
    ∀ c ∈ natLit n, 48 ≤ c.toNat ∧ c.toNat ≤ 57 := by
  intro c hc
  by_cases h : n = 0
  · subst h
    have hc0 : c = '0' := by simpa [natLit] using hc
    subst hc0
    exact ⟨by decide, by decide⟩
  · simp only [natLit, if_neg h, natChars, List.mem_map] at hc
    obtain ⟨d, hd, hdc⟩ := hc
    rw [← hdc]
    exact digitChar_toNat (digits_lt_ten n d hd)

theorem natLit_no_dot (n : Nat) : ∀ c ∈ natLit n, decide (c ≠ '.') = true := by
  intro c hc
  have h := natLit_chars n c hc
  simp only [ne_eq, decide_eq_true_eq]
  intro hdot
  rw [hdot] at h
  exact absurd h.1 (by decide)

theorem parseUnsigned_natLit (n : Nat) : parseUnsigned (natLit n) = some (n : ℚ) := by
  obtain ⟨ds, hds, hval⟩ := fieldDigits_natLit n
  simp only [parseUnsigned, dropWhile_of_all (natLit_no_dot n), hds]
  simp [hval]

theorem parseUnsigned_dec (n : Nat) (fp : List Nat) (hfp : fp ≠ [])
    (hwf : ∀ x ∈ fp, x < 10) :
    parseUnsigned (natLit n ++ '.' :: fp.map digitChar) =
      some ((n : ℚ) + fracVal fp) := by
  obtain ⟨ds, hds, hval⟩ := fieldDigits_natLit n
  have hdrop : (natLit n ++ '.' :: fp.map digitChar).dropWhile (fun c => c ≠ '.') =
      '.' :: fp.map digitChar := by
    rw [dropWhile_append_of_all (natLit_no_dot n)]
    simp [List.dropWhile_cons]
  have htake : (natLit n ++ '.' :: fp.map digitChar).takeWhile (fun c => c ≠ '.') =
      natLit n := by
    rw [takeWhile_append_of_all (natLit_no_dot n)]
    simp [List.takeWhile_cons]
  have hfd : fieldDigits (fp.map digitChar) = some fp := by
    have hne : fp.map digitChar ≠ [] := by
      simpa [List.map_eq_nil_iff] using hfp
    simp only [fieldDigits, List.isEmpty_iff]
    rw [if_neg hne]
    exact optMap_digitVal_digitChar hwf
  simp only [parseUnsigned, hdrop, htake, hds, hfd]
  simp [hval]

theorem digitHead_ne {a rest t : List Char} {c : Char}
    (ha : ∃ c0 cs0, a = c0 :: cs0 ∧ 48 ≤ c0.toNat ∧ c0.toNat ≤ 57)
    (hc : ¬(48 ≤ c.toNat ∧ c.toNat ≤ 57)) : a ++ rest ≠ c :: t := by
  intro h
  obtain ⟨c0, cs0, hn, h48, h57⟩ := ha
  rw [hn] at h
  simp only [List.cons_append, List.cons.injEq] at h
  exact hc (h.1 ▸ ⟨h48, h57⟩)

theorem parseUnsigned_renderBody (ip : Nat) (fp : List Nat) (hwf : ∀ x ∈ fp, x < 10) :
    parseUnsigned (natLit ip ++ (if fp.isEmpty then [] else '.' :: fp.map digitChar)) =
      some ((ip : ℚ) + fracVal fp) := by
  by_cases hfp : fp = []
  · subst hfp
    simp [parseUnsigned_natLit, fracVal]
  · rw [if_neg (by simpa [List.isEmpty_iff] using hfp)]
    exact parseUnsigned_dec ip fp hfp hwf

/-- Round trip for one field: a well-formed rendered decimal parses back to
its exact value. -/
theorem parseFVal_render (d : Dec) (h : d.wf) :
    parseFVal d.render = some (FVal.finite d.val) := by
  obtain ⟨c0, cs0, hlit, h48, h57⟩ := natLit_head d.ip
  have hbody := parseUnsigned_renderBody d.ip d.fp h
  have hne : ∀ (c : Char) (t : List Char), ¬(48 ≤ c.toNat ∧ c.toNat ≤ 57) →
      natLit d.ip ++ (if d.fp.isEmpty then [] else '.' :: d.fp.map digitChar) ≠ c :: t :=
    fun c t hc => digitHead_ne ⟨c0, cs0, hlit, h48, h57⟩ hc
  cases hneg : d.neg with
  | false =>
      have hrender : d.render =
          natLit d.ip ++ (if d.fp.isEmpty then [] else '.' :: d.fp.map digitChar) := by
        simp [Dec.render, hneg]
      have hn1 : natLit d.ip ++ (if d.fp.isEmpty then [] else '.' :: d.fp.map digitChar) ≠
          "nan".data := by
        rw [show ("nan".data) = 'n' :: ['a', 'n'] from rfl]
        exact hne _ _ (by decide)
      have hn2 : natLit d.ip ++ (if d.fp.isEmpty then [] else '.' :: d.fp.map digitChar) ≠
          "NaN".data := by
        rw [show ("NaN".data) = 'N' :: ['a', 'N'] from rfl]
        exact hne _ _ (by decide)
      have hn3 : natLit d.ip ++ (if d.fp.isEmpty then [] else '.' :: d.fp.map digitChar) ≠
          "inf".data := by
        rw [show ("inf".data) = 'i' :: ['n', 'f'] from rfl]
        exact hne _ _ (by decide)
      have hn4 : natLit d.ip ++ (if d.fp.isEmpty then [] else '.' :: d.fp.map digitChar) ≠
          "Inf".data := by
        rw [show ("Inf".data) = 'I' :: ['n', 'f'] from rfl]
        exact hne _ _ (by decide)
      have hn5 : natLit d.ip ++ (if d.fp.isEmpty then [] else '.' :: d.fp.map digitChar) ≠
          "-inf".data := by
        rw [show ("-inf".data) = '-' :: ['i', 'n', 'f'] from rfl]
        exact hne _ _ (by decide)
      have hn6 : natLit d.ip ++ (if d.fp.isEmpty then [] else '.' :: d.fp.map digitChar) ≠
          "-Inf".data := by
        rw [show ("-Inf".data) = '-' :: ['I', 'n', 'f'] from rfl]
        exact hne _ _ (by decide)
      have hhead : ¬((natLit d.ip ++
          (if d.fp.isEmpty then [] else '.' :: d.fp.map digitChar)).head? = some '-') := by
        rw [hlit]
        simp only [List.cons_append, List.head?_cons, Option.some.injEq]
        intro hc
        rw [hc] at h48
        exact absurd h48 (by decide)
      rw [parseFVal, hrender, if_neg (not_or.mpr ⟨hn1, hn2⟩), if_neg (not_or.mpr ⟨hn3, hn4⟩),
        if_neg (not_or.mpr ⟨hn5, hn6⟩), if_neg hhead, hbody]
      simp [Dec.val, hneg]
  | true =>
      have hrender : d.render =
          '-' :: (natLit d.ip ++ (if d.fp.isEmpty then [] else '.' :: d.fp.map digitChar)) := by
        simp [Dec.render, hneg]
      have hn1 : '-' :: (natLit d.ip ++
          (if d.fp.isEmpty then [] else '.' :: d.fp.map digitChar)) ≠ "nan".data := by
        rw [show ("nan".data) = 'n' :: ['a', 'n'] from rfl]
        intro hcontra
        exact absurd (List.cons.injEq .. ▸ hcontra).1 (by decide)
      have hn2 : '-' :: (natLit d.ip ++
          (if d.fp.isEmpty then [] else '.' :: d.fp.map digitChar)) ≠ "NaN".data := by
        rw [show ("NaN".data) = 'N' :: ['a', 'N'] from rfl]
        intro hcontra
        exact absurd (List.cons.injEq .. ▸ hcontra).1 (by decide)
      have hn3 : '-' :: (natLit d.ip ++
          (if d.fp.isEmpty then [] else '.' :: d.fp.map digitChar)) ≠ "inf".data := by
        rw [show ("inf".data) = 'i' :: ['n', 'f'] from rfl]
        intro hcontra
        exact absurd (List.cons.injEq .. ▸ hcontra).1 (by decide)
      have hn4 : '-' :: (natLit d.ip ++
          (if d.fp.isEmpty then [] else '.' :: d.fp.map digitChar)) ≠ "Inf".data := by
        rw [show ("Inf".data) = 'I' :: ['n', 'f'] from rfl]
        intro hcontra
        exact absurd (List.cons.injEq .. ▸ hcontra).1 (by decide)
      have hn5 : '-' :: (natLit d.ip ++
          (if d.fp.isEmpty then [] else '.' :: d.fp.map digitChar)) ≠ "-inf".data := by
        rw [show ("-inf".data) = '-' :: ['i', 'n', 'f'] from rfl]
        intro hcontra
        exact hne _ _ (by decide) (List.cons.injEq .. ▸ hcontra).2
      have hn6 : '-' :: (natLit d.ip ++
          (if d.fp.isEmpty then [] else '.' :: d.fp.map digitChar)) ≠ "-Inf".data := by
        rw [show ("-Inf".data) = '-' :: ['I', 'n', 'f'] from rfl]
        intro hcontra
        exact hne _ _ (by decide) (List.cons.injEq .. ▸ hcontra).2
      have hhead : ('-' :: (natLit d.ip ++
          (if d.fp.isEmpty then [] else '.' :: d.fp.map digitChar))).head? = some '-' := by
        simp
      rw [parseFVal, hrender, if_neg (not_or.mpr ⟨hn1, hn2⟩), if_neg (not_or.mpr ⟨hn3, hn4⟩),
        if_neg (not_or.mpr ⟨hn5, hn6⟩), if_pos hhead]
      simp only [List.tail_cons]
      rw [hbody]
      simp [Dec.val, hneg, neg_one_mul]

/-- Modelled from the spec: the error taxonomy of the core.  ProcessFailure
carries every failing chain id with its captured stderr tail; ParseError and
ConsistencyError carry enough context to locate the fault. -/
inductive Err where
  | processFailure (failed : List (Nat × String))
  | parseError (file : String) (line : Nat) (col : Nat) (msg : String)
  | consistencyError (file : String) (msg : String)
  | cancellationError
deriving DecidableEq

/-- Split a line on the field delimiter. -/
def splitFields : List Char → List (List Char)
  | [] => [[]]
  | c :: cs =>
      if c = ',' then [] :: splitFields cs
      else
        match splitFields cs with
        | [] => [[c]]
        | f :: fs => (c :: f) :: fs

/-- Join fields with the field delimiter. -/
def joinFields : List (List Char) → List Char
  | [] => []
  | [f] => f
  | f :: fs => f ++ ',' :: joinFields fs

theorem splitFields_no_comma {f : List Char} (h : ',' ∉ f) : splitFields f = [f] := by
  induction f with
  | nil => rfl
  | cons c f ih =>
      have hc : ¬(c = ',') := fun hcc => h (hcc ▸ List.mem_cons_self c f)
      have hf : ',' ∉ f := fun hm => h (List.mem_cons_of_mem c hm)
      simp [splitFields, hc, ih hf]

theorem splitFields_append {f t : List Char} (h : ',' ∉ f) :
    splitFields (f ++ ',' :: t) = f :: splitFields t := by
  induction f with
  | nil => simp [splitFields]
  | cons c f ih =>
      have hc : ¬(c = ',') := fun hcc => h (hcc ▸ List.mem_cons_self c f)
      have hf : ',' ∉ f := fun hm => h (List.mem_cons_of_mem c hm)
      simp [splitFields, hc, ih hf]

theorem splitFields_joinFields {fs : List (List Char)} (hne : fs ≠ [])
    (h : ∀ f ∈ fs, ',' ∉ f) : splitFields (joinFields fs) = fs := by
  induction fs with
  | nil => exact absurd rfl hne
  | cons f fs ih =>
      cases fs with
      | nil => exact splitFields_no_comma (h f (List.mem_cons_self f []))
      | cons g gs =>
          have hjoin : joinFields (f :: g :: gs) = f ++ ',' :: joinFields (g :: gs) := rfl
          rw [hjoin, splitFields_append (h f (List.mem_cons_self f _))]
          rw [ih (by simp) (fun x hx => h x (List.mem_cons_of_mem f hx))]

theorem comma_not_mem_render (d : Dec) (h : d.wf) : ',' ∉ d.render := by
  intro hc
  simp only [Dec.render] at hc
  rcases List.mem_append.mp hc with hc1 | hcf
  · rcases List.mem_append.mp hc1 with ha | hb
    · cases hn : d.neg with
      | false =>
          rw [hn] at ha
          rw [if_neg (by decide)] at ha
          exact absurd ha (List.not_mem_nil ',')
      | true =>
          rw [hn] at ha
          rw [if_pos rfl] at ha
          exact absurd (List.mem_singleton.mp ha) (by decide)
    · exact absurd (natLit_chars d.ip ',' hb).1 (by decide)
  · cases hn : d.fp.isEmpty with
    | false =>
        rw [hn] at hcf
        rw [if_neg (by decide)] at hcf
        rcases List.mem_cons.mp hcf with hdot | hmem
        · exact absurd hdot (by decide)
        · obtain ⟨x, hx, hxc⟩ := List.mem_map.mp hmem
          have hrange := digitChar_toNat (h x hx)
          rw [hxc] at hrange
          exact absurd hrange.1 (by decide)
    | true =>
        rw [hn] at hcf
        rw [if_pos rfl] at hcf
        exact absurd hcf (List.not_mem_nil ',')

/-- Render a data row as a line of text. -/
def renderRow (r : List Dec) : List Char := joinFields (r.map Dec.render)

/-- Modelled from the spec: convert the fields of one data row, reporting
file, line and column on a conversion failure. -/
def parseRowFields (file : String) (lineNo : Nat) : Nat → List (List Char) → Except Err (List FVal)
  | _, [] => Except.ok []
  | colNo, f :: fs =>
      match parseFVal f with
      | none => Except.error (Err.parseError file lineNo colNo "field is not a number")
      | some v =>
          match parseRowFields file lineNo (colNo + 1) fs with
          | Except.ok vs => Except.ok (v :: vs)
          | Except.error e => Except.error e

/-- Modelled from the spec: parse one data row against a known column count. -/
def parseRow (file : String) (lineNo ncols : Nat) (cs : List Char) : Except Err (List FVal) :=
  if (splitFields cs).length = ncols then parseRowFields file lineNo 0 (splitFields cs)
  else Except.error (Err.parseError file lineNo 0 "wrong number of columns")

/-- Modelled from the spec: read exactly the requested number of data rows,
failing when the file ends first. -/
def readRows (file : String) (ncols : Nat) : Nat → Nat → List (List Char) → Except Err (List (List FVal))
  | _, 0, _ => Except.ok []
  | lineNo, _ + 1, [] => Except.error (Err.parseError file lineNo 0 "unexpected end of file")
  | lineNo, n + 1, l :: ls =>
      match parseRow file lineNo ncols l with
      | Except.error e => Except.error e
      | Except.ok r =>
          match readRows file ncols (lineNo + 1) n ls with
          | Except.error e => Except.error e
          | Except.ok rs => Except.ok (r :: rs)

/-- Modelled from the spec: the Sample Data Reader skips the caller-supplied
warmup-row count, then reads exactly the sampling-draw count of rows. -/
def readData (file : String) (ncols warmup draws : Nat) (lines : List (List Char)) :
    Except Err (List (List FVal)) :=
  readRows file ncols warmup draws (lines.drop warmup)

theorem parseRowFields_render (file : String) (lineNo : Nat) (r : List Dec)
    (h : ∀ d ∈ r, d.wf) : ∀ colNo,
    parseRowFields file lineNo colNo (r.map Dec.render) =
      Except.ok (r.map (fun d => FVal.finite d.val)) := by
  induction r with
  | nil => intro colNo; rfl
  | cons d r ih =>
      intro colNo
      have hd := parseFVal_render d (h d (List.mem_cons_self d r))
      have hr := ih (fun x hx => h x (List.mem_cons_of_mem d hx)) (colNo + 1)
      simp only [List.map_cons, parseRowFields, hd, hr]

theorem parseRow_render (file : String) (lineNo : Nat) (r : List Dec)
    (hne : r ≠ []) (h : ∀ d ∈ r, d.wf) :
    parseRow file lineNo r.length (renderRow r) =
      Except.ok (r.map (fun d => FVal.finite d.val)) := by
  have hsplit : splitFields (renderRow r) = r.map Dec.render := by
    refine splitFields_joinFields (by simpa using hne) ?_
    intro f hf
    obtain ⟨d, hd, hdf⟩ := List.mem_map.mp hf
    exact hdf ▸ comma_not_mem_render d (h d hd)
  simp only [parseRow, hsplit, List.length_map]
  rw [if_pos trivial]
  exact parseRowFields_render file lineNo r h 0

theorem readRows_render (file : String) (ncols : Nat) (rows : List (List Dec))
    (h : ∀ r ∈ rows, r.length = ncols ∧ r ≠ [] ∧ ∀ d ∈ r, d.wf) : ∀ lineNo,
    readRows file ncols lineNo rows.length (rows.map renderRow) =
      Except.ok (rows.map (fun r => r.map (fun d => FVal.finite d.val))) := by
  induction rows with
  | nil => intro lineNo; rfl
  | cons r rows ih =>
      intro lineNo
      obtain ⟨hlen, hne, hwf⟩ := h r (List.mem_cons_self r rows)
      have hrow := parseRow_render file lineNo r hne hwf
      rw [hlen] at hrow
      have hrest := ih (fun x hx => h x (List.mem_cons_of_mem r hx)) (lineNo + 1)
      simp only [List.map_cons, List.length_cons, readRows, hrow, hrest]

/-- A field that a Stan CSV data row may legally contain: one of the special
literal tokens, or a well-formed signed decimal numeral. -/
def GoodField (cs : List Char) : Prop :=
  cs = "nan".data ∨ cs = "NaN".data ∨ cs = "inf".data ∨ cs = "Inf".data ∨
    cs = "-inf".data ∨ cs = "-Inf".data ∨ ∃ d : Dec, d.wf ∧ cs = d.render

/-- Claim C7: every data-row field read by the Sample Data Reader parses to a value;
the special literal tokens for not-a-number and the infinities parse to the
corresponding IEEE values and never cause the parse to fail. -/
theorem sampleReader_special_tokens :
    parseFVal "nan".data = some FVal.nan
    ∧ parseFVal "inf".data = some FVal.inf
    ∧ parseFVal "-inf".data = some FVal.neginf
    ∧ ∀ cs, GoodField cs → ∃ v, parseFVal cs = some v := by
  refine ⟨by decide, by decide, by decide, ?_⟩
  intro cs h
  rcases h with h | h | h | h | h | h | ⟨d, hwf, h⟩ <;> subst h
  · exact ⟨FVal.nan, by decide⟩
  · exact ⟨FVal.nan, by decide⟩
  · exact ⟨FVal.inf, by decide⟩
  · exact ⟨FVal.inf, by decide⟩
  · exact ⟨FVal.neginf, by decide⟩
  · exact ⟨FVal.neginf, by decide⟩
  · exact ⟨FVal.finite d.val, parseFVal_render d hwf⟩

theorem sampleReader_special_tokens_witness :
    ∃ v, parseFVal "NaN".data = some v :=
  sampleReader_special_tokens.2.2.2 "NaN".data (Or.inr (Or.inl rfl))

/-- Claim C8: round trip for the Sample Data Reader.  A synthetic file whose data
rows are rendered decimals parses back, after skipping exactly the
warmup-row count, to exactly the requested number of rows with the exact
written values. -/
theorem sampleReader_roundTrip (file : String) (ncols : Nat) (warm rows : List (List Dec))
    (hn : 0 < ncols)
    (hw : ∀ r ∈ rows, r.length = ncols ∧ ∀ d ∈ r, d.wf) :
    readData file ncols warm.length rows.length ((warm ++ rows).map renderRow) =
      Except.ok (rows.map (fun r => r.map (fun d => FVal.finite d.val)))
    ∧ ∀ out, readData file ncols warm.length rows.length ((warm ++ rows).map renderRow) =
        Except.ok out → out.length = rows.length := by
  have hdrop : ((warm ++ rows).map renderRow).drop warm.length = rows.map renderRow := by
    rw [List.map_append,
      show warm.length = (warm.map renderRow).length from (List.length_map _ _).symm]
    exact List.drop_left _ _
  have h1 : readData file ncols warm.length rows.length ((warm ++ rows).map renderRow) =
      Except.ok (rows.map (fun r => r.map (fun d => FVal.finite d.val))) := by
    rw [readData, hdrop]
    refine readRows_render file ncols rows ?_ warm.length
    intro r hr
    obtain ⟨hlen, hwf⟩ := hw r hr
    refine ⟨hlen, ?_, hwf⟩
    intro hnil
    rw [hnil] at hlen
    exact absurd hlen.symm (Nat.ne_of_gt hn)
  refine ⟨h1, ?_⟩
  intro out hout
  rw [h1] at hout
  injection hout with h2
  rw [← h2, List.length_map]

theorem sampleReader_roundTrip_witness :
    readData "c1.csv" 2 (List.length [[Dec.mk false 0 [], Dec.mk false 0 []]])
      (List.length [[Dec.mk false 1 [], Dec.mk true 2 [5]]])
      (List.map renderRow
        ([[Dec.mk false 0 [], Dec.mk false 0 []]] ++ [[Dec.mk false 1 [], Dec.mk true 2 [5]]])) =
    Except.ok (List.map (fun r => r.map (fun d => FVal.finite d.val))
      [[Dec.mk false 1 [], Dec.mk true 2 [5]]]) :=
  (sampleReader_roundTrip "c1.csv" 2 _ _ (by decide) (by decide)).1

/-- Parse one bracket index: a decimal numeral that must be 1-based. -/
def parseIdx (cs : List Char) : Option Nat := do
  let ds ← fieldDigits cs
  let n := natFromDigits ds
  if 1 ≤ n then some n else none

/-- Parse the comma-separated 1-based index list found between brackets. -/
def parseIdxList (cs : List Char) : Option (List Nat) :=
  optMap parseIdx (splitFields cs)

/-- Modelled from the spec: split a header column name into its base name and
its bracket index tuple; a name with no bracket suffix gets the empty tuple
(scalar, zero-dimension shape). -/
def parseColName (cs : List Char) : Option (List Char × List Nat) :=
  if '[' ∈ cs then
    match cs.dropWhile (fun c => c ≠ '[') with
    | [] => none
    | _ :: rest =>
        if rest.getLast? = some ']' then
          (parseIdxList rest.dropLast).map (fun is => (cs.takeWhile (fun c => c ≠ '['), is))
        else none
  else some (cs, [])

/-- Group consecutive parsed column names sharing a base name. -/
def groupCols : List (List Char × List Nat) → List (List Char × List (List Nat))
  | [] => []
  | (b, i) :: rest =>
      match groupCols rest with
      | (b2, is) :: gs => if b = b2 then (b, i :: is) :: gs else (b, [i]) :: (b2, is) :: gs
      | [] => [(b, [i])]

/-- Pointwise maximum of two index tuples, padding with the longer one. -/
def zipMax : List Nat → List Nat → List Nat
  | [], ys => ys
  | x :: xs, [] => x :: xs
  | x :: xs, y :: ys => max x y :: zipMax xs ys

/-- Modelled from the spec: the shape derived for a variable is the
per-position maximum of the index tuples across its column group. -/
def shapeOf (ts : List (List Nat)) : List Nat := ts.foldr zipMax []

/-- Number of flattened members a shape denotes. -/
def prodDims (s : List Nat) : Nat := s.foldr (fun a b => a * b) 1

/-- Modelled from the spec: derive one variable from its column group.  The
flattened member count must equal the product of the derived shape; a
mismatch is a fatal parse error. -/
def parseGroup (file : String) (g : List Char × List (List Nat)) :
    Except Err (List Char × List Nat) :=
  if g.2.length = prodDims (shapeOf g.2) then Except.ok (g.1, shapeOf g.2)
  else Except.error (Err.parseError file 0 0 "group size does not match product of dimensions")

/-- Modelled from the spec: the Header Parser maps the model-group column
names of a header to variables with reconstructed shapes. -/
def buildLayout (file : String) (names : List (List Char)) :
    Except Err (List (List Char × List Nat)) :=
  match optMap parseColName names with
  | none => Except.error (Err.parseError file 0 0 "malformed column name")
  | some pairs =>
      match optMap (fun g => (parseGroup file g).toOption) (groupCols pairs) with
      | none => Except.error (Err.parseError file 0 0 "group size does not match product of dimensions")
      | some vars => Except.ok vars

/-- All index tuples of a shape in column-major order: the first index
varies fastest. -/
def cmEnum : List Nat → List (List Nat)
  | [] => [[]]
  | d :: ds => (cmEnum ds).flatMap (fun t => (List.range d).map (fun i => (i + 1) :: t))

/-- The index tuple sitting at a given flattened position, column-major. -/
def cmTuple : List Nat → Nat → List Nat
  | [], _ => []
  | d :: ds, r => (r % d + 1) :: cmTuple ds (r / d)

/-- The flattened column position of an index tuple under column-major
traversal. -/
def cmRank : List Nat → List Nat → Nat
  | _, [] => 0
  | [], _ :: _ => 0
  | d :: ds, i :: is => (i - 1) + d * cmRank ds is

/-- Header text of the flattened column for one index tuple. -/
def renderName (b : List Char) (t : List Nat) : List Char :=
  if t.isEmpty then b else b ++ '[' :: (joinFields (t.map natLit) ++ [']'])

/-- The header column names of a variable with the given shape, in the
column-major order the engine writes them. -/
def cmNames (b : List Char) (s : List Nat) : List (List Char) :=
  (cmEnum s).map (renderName b)

theorem flatMap_blocks_length (l : List (List Nat)) (d : Nat) :
    (l.flatMap (fun t => (List.range d).map (fun i => (i + 1) :: t))).length = l.length * d := by
  induction l with
  | nil => simp
  | cons t l ih =>
      simp only [List.flatMap_cons, List.length_append, List.length_map, List.length_range,
        List.length_cons, ih]
      ring

theorem cmEnum_length (s : List Nat) : (cmEnum s).length = prodDims s := by
  induction s with
  | nil => rfl
  | cons d ds ih =>
      simp only [cmEnum, prodDims, List.foldr_cons, flatMap_blocks_length, ih]
      ring

theorem flatMap_blocks_get (l : List (List Nat)) (d : Nat) : ∀ r, r < l.length * d →
    (l.flatMap (fun t => (List.range d).map (fun i => (i + 1) :: t))).get? r =
      (l.get? (r / d)).map (fun t => (r % d + 1) :: t) := by
  induction l with
  | nil =>
      intro r hr
      simp at hr
  | cons t l ih =>
      intro r hr
      have hd : 0 < d := by
        rcases Nat.eq_zero_or_pos d with h0 | h0
        · rw [h0] at hr
          simp at hr
        · exact h0
      by_cases hrd : r < d
      · have hlt : r < ((List.range d).map (fun i => (i + 1) :: t)).length := by
          simpa using hrd
        rw [List.flatMap_cons, List.get?_append hlt, List.get?_map, List.get?_range hrd]
        rw [Nat.div_eq_of_lt hrd, Nat.mod_eq_of_lt hrd]
        rfl
      · push_neg at hrd
        have hlen : ((List.range d).map (fun i => (i + 1) :: t)).length ≤ r := by
          simpa using hrd
        rw [List.flatMap_cons, List.get?_append_right hlen]
        have hr2 : r - d < l.length * d := by
          rw [List.length_cons, Nat.succ_mul] at hr
          omega
        have := ih (r - d) hr2
        simp only [List.length_map, List.length_range]
        rw [this]
        obtain ⟨r2, hr2eq⟩ : ∃ r2, r = r2 + d := ⟨r - d, by omega⟩
        subst hr2eq
        rw [Nat.add_sub_cancel, Nat.add_div_right _ hd, Nat.add_mod_right]
        rfl

theorem cmEnum_get (s : List Nat) : ∀ r, r < prodDims s →
    (cmEnum s).get? r = some (cmTuple s r) := by
  induction s with
  | nil =>
      intro r hr
      simp only [prodDims, List.foldr_nil] at hr
      have hr0 : r = 0 := by omega
      subst hr0
      rfl
  | cons d ds ih =>
      intro r hr
      have hlen : r < (cmEnum ds).length * d := by
        rw [cmEnum_length ds]
        calc r < prodDims (d :: ds) := hr
        _ = prodDims ds * d := by
              simp only [prodDims, List.foldr_cons]
              ring
      have hd : 0 < d := by
        rcases Nat.eq_zero_or_pos d with h0 | h0
        · rw [h0] at hlen
          simp at hlen
        · exact h0
      have hdiv : r / d < prodDims ds := by
        rw [Nat.div_lt_iff_lt_mul hd]
        rw [cmEnum_length ds] at hlen
        exact hlen
      rw [show cmEnum (d :: ds) =
        (cmEnum ds).flatMap (fun t => (List.range d).map (fun i => (i + 1) :: t)) from rfl]
      rw [flatMap_blocks_get (cmEnum ds) d r hlen, ih (r / d) hdiv]
      rfl

theorem cmRank_cmTuple (s : List Nat) : ∀ r, r < prodDims s →
    cmRank s (cmTuple s r) = r := by
  induction s with
  | nil =>
      intro r hr
      simp only [prodDims, List.foldr_nil] at hr
      have hr0 : r = 0 := by omega
      subst hr0
      rfl
  | cons d ds ih =>
      intro r hr
      have hd : 0 < d := by
        rcases Nat.eq_zero_or_pos d with h0 | h0
        · rw [h0] at hr
          simp [prodDims] at hr
        · exact h0
      have hdiv : r / d < prodDims ds := by
        rw [Nat.div_lt_iff_lt_mul hd]
        calc r < prodDims (d :: ds) := hr
        _ = prodDims ds * d := by
              simp only [prodDims, List.foldr_cons]
              ring
      rw [show cmTuple (d :: ds) r = (r % d + 1) :: cmTuple ds (r / d) from rfl]
      rw [show cmRank (d :: ds) ((r % d + 1) :: cmTuple ds (r / d)) =
        (r % d + 1 - 1) + d * cmRank ds (cmTuple ds (r / d)) from rfl]
      rw [ih (r / d) hdiv]
      simp only [Nat.add_sub_cancel]
      exact Nat.mod_add_div r d

theorem cmEnum_rank (s : List Nat) (r : Nat) (t : List Nat)
    (h : (cmEnum s).get? r = some t) : cmRank s t = r := by
  have hr : r < prodDims s := by
    have := List.get?_eq_some.mp h
    obtain ⟨hlt, _⟩ := this
    rwa [cmEnum_length s] at hlt
  have hget := cmEnum_get s r hr
  rw [h] at hget
  injection hget with ht
  rw [ht]
  exact cmRank_cmTuple s r hr

theorem zipMax_getD : ∀ (a b : List Nat) (p : Nat),
    (zipMax a b).getD p 0 = max (a.getD p 0) (b.getD p 0) := by
  intro a
  induction a with
  | nil =>
      intro b p
      simp [zipMax]
  | cons x xs ih =>
      intro b p
      cases b with
      | nil => simp [zipMax]
      | cons y ys =>
          cases p with
          | zero => simp [zipMax]
          | succ p =>
              simp only [zipMax, List.getD_cons_succ]
              exact ih ys p

theorem zipMax_length : ∀ (a b : List Nat),
    (zipMax a b).length = max a.length b.length := by
  intro a
  induction a with
  | nil =>
      intro b
      simp [zipMax]
  | cons x xs ih =>
      intro b
      cases b with
      | nil => simp [zipMax]
      | cons y ys => simp [zipMax, ih ys, Nat.succ_max_succ]

theorem shapeOf_getD (ts : List (List Nat)) (p : Nat) :
    (shapeOf ts).getD p 0 = (ts.map (fun t => t.getD p 0)).foldr max 0 := by
  induction ts with
  | nil => simp [shapeOf]
  | cons t ts ih =>
      simp only [shapeOf, List.foldr_cons, List.map_cons]
      rw [zipMax_getD]
      rw [show List.foldr zipMax [] ts = shapeOf ts from rfl, ih]

theorem shapeOf_length (ts : List (List Nat)) :
    (shapeOf ts).length = (ts.map List.length).foldr max 0 := by
  induction ts with
  | nil => simp [shapeOf]
  | cons t ts ih =>
      simp only [shapeOf, List.foldr_cons, List.map_cons]
      rw [zipMax_length]
      rw [show List.foldr zipMax [] ts = shapeOf ts from rfl, ih]

theorem cmEnum_mem_length (s : List Nat) : ∀ t ∈ cmEnum s, t.length = s.length := by
  induction s with
  | nil =>
      intro t ht
      simp only [cmEnum, List.mem_singleton] at ht
      subst ht
      rfl
  | cons d ds ih =>
      intro t ht
      simp only [cmEnum, List.mem_flatMap, List.mem_map] at ht
      obtain ⟨t2, ht2, i, _, hmk⟩ := ht
      rw [← hmk]
      simp [ih t2 ht2]

theorem cmEnum_mem_getD (s : List Nat) : ∀ t ∈ cmEnum s, ∀ p, t.getD p 0 ≤ s.getD p 0 := by
  induction s with
  | nil =>
      intro t ht p
      simp only [cmEnum, List.mem_singleton] at ht
      subst ht
      simp
  | cons d ds ih =>
      intro t ht p
      simp only [cmEnum, List.mem_flatMap, List.mem_map] at ht
      obtain ⟨t2, ht2, i, hi, hmk⟩ := ht
      rw [← hmk]
      cases p with
      | zero =>
          simp only [List.getD_cons_zero]
          exact List.mem_range.mp hi
      | succ p =>
          simp only [List.getD_cons_succ]
          exact ih t2 ht2 p

theorem cmEnum_mem_pos (s : List Nat) : ∀ t ∈ cmEnum s, ∀ i ∈ t, 1 ≤ i := by
  induction s with
  | nil =>
      intro t ht i hi
      simp only [cmEnum, List.mem_singleton] at ht
      subst ht
      exact absurd hi (List.not_mem_nil i)
  | cons d ds ih =>
      intro t ht i hi
      simp only [cmEnum, List.mem_flatMap, List.mem_map] at ht
      obtain ⟨t2, ht2, j, _, hmk⟩ := ht
      rw [← hmk] at hi
      rcases List.mem_cons.mp hi with h1 | h2
      · omega
      · exact ih t2 ht2 i h2

theorem cmEnum_self_mem (s : List Nat) (hs : ∀ d ∈ s, 1 ≤ d) : s ∈ cmEnum s := by
  induction s with
  | nil => simp [cmEnum]
  | cons d ds ih =>
      simp only [cmEnum, List.mem_flatMap, List.mem_map]
      refine ⟨ds, ih (fun x hx => hs x (List.mem_cons_of_mem d hx)), d - 1, ?_, ?_⟩
      · have hd : 1 ≤ d := hs d (List.mem_cons_self d ds)
        exact List.mem_range.mpr (by omega)
      · have hd : 1 ≤ d := hs d (List.mem_cons_self d ds)
        congr 1
        omega

theorem foldr_max_le {f : List Nat → Nat} {ts : List (List Nat)} {B : Nat}
    (h : ∀ t ∈ ts, f t ≤ B) : (ts.map f).foldr max 0 ≤ B := by
  induction ts with
  | nil => simp
  | cons t ts ih =>
      simp only [List.map_cons, List.foldr_cons, max_le_iff]
      exact ⟨h t (List.mem_cons_self t ts),
        ih (fun x hx => h x (List.mem_cons_of_mem t hx))⟩

theorem le_foldr_max {f : List Nat → Nat} {ts : List (List Nat)} {t : List Nat}
    (h : t ∈ ts) : f t ≤ (ts.map f).foldr max 0 := by
  induction ts with
  | nil => exact absurd h (List.not_mem_nil t)
  | cons t2 ts ih =>
      simp only [List.map_cons, List.foldr_cons]
      rcases List.mem_cons.mp h with h1 | h2
      · subst h1
        exact le_max_left _ _
      · exact le_trans (ih h2) (le_max_right _ _)

/-- The shape reconstructed from a column-major header is the original
shape. -/
theorem shapeOf_cmEnum (s : List Nat) (hs : ∀ d ∈ s, 1 ≤ d) : shapeOf (cmEnum s) = s := by
  have hself := cmEnum_self_mem s hs
  have hlen : (shapeOf (cmEnum s)).length = s.length := by
    rw [shapeOf_length]
    refine le_antisymm (foldr_max_le ?_) ?_
    · intro t ht
      exact le_of_eq (cmEnum_mem_length s t ht)
    · exact @le_foldr_max List.length (cmEnum s) s hself
  have hgetD : ∀ p, (shapeOf (cmEnum s)).getD p 0 = s.getD p 0 := by
    intro p
    rw [shapeOf_getD]
    refine le_antisymm (foldr_max_le ?_) ?_
    · intro t ht
      exact cmEnum_mem_getD s t ht p
    · exact @le_foldr_max (fun t => t.getD p 0) (cmEnum s) s hself
  apply List.ext_getElem hlen
  intro i h1 h2
  have := hgetD i
  rwa [List.getD_eq_getElem (shapeOf (cmEnum s)) 0 h1,
    List.getD_eq_getElem s 0 h2] at this

theorem optMap_map_eq {α β γ : Type} (f : β → Option γ) (g : α → β) (h : α → γ)
    (l : List α) (hp : ∀ x ∈ l, f (g x) = some (h x)) :
    optMap f (l.map g) = some (l.map h) := by
  induction l with
  | nil => rfl
  | cons x l ih =>
      have hx := hp x (List.mem_cons_self x l)
      have hl := ih (fun y hy => hp y (List.mem_cons_of_mem x hy))
      simp [optMap, hx, hl]

theorem parseIdx_natLit (n : Nat) (h : 1 ≤ n) : parseIdx (natLit n) = some n := by
  obtain ⟨ds, hds, hval⟩ := fieldDigits_natLit n
  simp [parseIdx, hds, hval, h]

theorem comma_not_mem_natLit (n : Nat) : ',' ∉ natLit n := by
  intro hc
  exact absurd (natLit_chars n ',' hc).1 (by decide)

theorem natLit_no_bracket (n : Nat) : ∀ c ∈ natLit n, decide (c ≠ '[') = true := by
  intro c hc
  have h := natLit_chars n c hc
  simp only [ne_eq, decide_eq_true_eq]
  intro hbr
  rw [hbr] at h
  exact absurd h.2 (by decide)

theorem parseIdxList_joinFields (t : List Nat) (ht : t ≠ [])
    (hpos : ∀ i ∈ t, 1 ≤ i) :
    parseIdxList (joinFields (t.map natLit)) = some t := by
  rw [parseIdxList, splitFields_joinFields (by simpa using ht)
    (fun f hf => by
      obtain ⟨i, hi, hif⟩ := List.mem_map.mp hf
      exact hif ▸ comma_not_mem_natLit i)]
  have := optMap_map_eq parseIdx natLit id t
    (fun i hi => by rw [parseIdx_natLit i (hpos i hi)]; rfl)
  simpa using this

theorem parseColName_renderName (b : List Char) (t : List Nat) (hb : '[' ∉ b)
    (hpos : ∀ i ∈ t, 1 ≤ i) :
    parseColName (renderName b t) = some (b, t) := by
  by_cases ht : t = []
  · subst ht
    rw [show renderName b [] = b from rfl]
    rw [parseColName, if_neg hb]
  · have htne : ¬(t.isEmpty = true) := by simpa [List.isEmpty_iff] using ht
    rw [renderName, if_neg htne]
    have hbp : ∀ c ∈ b, decide (c ≠ '[') = true := by
      intro c hc
      simp only [ne_eq, decide_eq_true_eq]
      intro hcb
      exact hb (hcb ▸ hc)
    have hmem : '[' ∈ b ++ '[' :: (joinFields (t.map natLit) ++ [']']) :=
      List.mem_append.mpr (Or.inr (List.mem_cons_self _ _))
    have hdrop : (b ++ '[' :: (joinFields (t.map natLit) ++ [']'])).dropWhile
        (fun c => c ≠ '[') = '[' :: (joinFields (t.map natLit) ++ [']']) := by
      rw [dropWhile_append_of_all hbp]
      rw [List.dropWhile_cons]
      simp
    have htake : (b ++ '[' :: (joinFields (t.map natLit) ++ [']'])).takeWhile
        (fun c => c ≠ '[') = b := by
      rw [takeWhile_append_of_all hbp]
      rw [List.takeWhile_cons]
      simp
    have hlast : (joinFields (t.map natLit) ++ [']']).getLast? = some ']' := by
      simp
    have hdl : (joinFields (t.map natLit) ++ [']']).dropLast = joinFields (t.map natLit) := by
      simp
    rw [parseColName, if_pos hmem, hdrop]
    simp only [hlast, if_pos rfl, hdl, htake]
    rw [parseIdxList_joinFields t ht hpos]
    rfl

theorem groupCols_const (b : List Char) (ts : List (List Nat)) (h : ts ≠ []) :
    groupCols (ts.map (fun t => (b, t))) = [(b, ts)] := by
  induction ts with
  | nil => exact absurd rfl h
  | cons t ts ih =>
      cases ts with
      | nil => rfl
      | cons t2 ts2 =>
          have ih2 : groupCols ((b, t2) :: List.map (fun x => (b, x)) ts2) =
              [(b, t2 :: ts2)] := by
            have h2 := ih (by simp)
            simpa using h2
          rw [show groupCols (List.map (fun x => (b, x)) (t :: t2 :: ts2)) =
            (match groupCols ((b, t2) :: List.map (fun x => (b, x)) ts2) with
            | (b2, is) :: gs =>
                if b = b2 then (b, t :: is) :: gs else (b, [t]) :: (b2, is) :: gs
            | [] => [(b, [t])]) from rfl]
          rw [ih2]
          simp

theorem prodDims_pos (s : List Nat) (hs : ∀ d ∈ s, 1 ≤ d) : 1 ≤ prodDims s := by
  induction s with
  | nil => exact le_refl 1
  | cons d ds ih =>
      have hd := hs d (List.mem_cons_self d ds)
      have hds := ih (fun x hx => hs x (List.mem_cons_of_mem d hx))
      simp only [prodDims, List.foldr_cons]
      exact Nat.one_le_iff_ne_zero.mpr (Nat.mul_ne_zero (by omega)
        (Nat.one_le_iff_ne_zero.mp hds))

theorem cmEnum_ne_nil (s : List Nat) (hs : ∀ d ∈ s, 1 ≤ d) : cmEnum s ≠ [] := by
  intro h
  have hlen := cmEnum_length s
  rw [h] at hlen
  have := prodDims_pos s hs
  simp only [List.length_nil] at hlen
  omega

theorem parseGroup_cmEnum (file : String) (b : List Char) (s : List Nat)
    (hs : ∀ d ∈ s, 1 ≤ d) :
    parseGroup file (b, cmEnum s) = Except.ok (b, s) := by
  rw [parseGroup]
  simp only [shapeOf_cmEnum s hs, cmEnum_length s]
  rw [if_pos trivial]

theorem buildLayout_cmNames (file : String) (b : List Char) (s : List Nat)
    (hb : '[' ∉ b) (hs : ∀ d ∈ s, 1 ≤ d) :
    buildLayout file (cmNames b s) = Except.ok [(b, s)] := by
  have h1 : optMap parseColName (cmNames b s) =
      some ((cmEnum s).map (fun t => (b, t))) := by
    rw [cmNames]
    exact optMap_map_eq parseColName (renderName b) (fun t => (b, t)) (cmEnum s)
      (fun t ht => parseColName_renderName b t hb (cmEnum_mem_pos s t ht))
  have h2 : groupCols ((cmEnum s).map (fun t => (b, t))) = [(b, cmEnum s)] :=
    groupCols_const b (cmEnum s) (cmEnum_ne_nil s hs)
  have h3 := parseGroup_cmEnum file b s hs
  rw [buildLayout, h1]
  simp only [h2]
  simp [optMap, h3, Except.toOption]

/-- Claim C3: the Header Parser reconstructs multi-dimensional variable shapes.
For a column group written in column-major order for a shape, the full
pipeline (name parsing, grouping, per-position index maximum, member-count
verification) recovers exactly that shape; the tuple at flattened position r
has column-major rank r; a member count differing from the product of the
derived shape is a fatal parse error; and a bracket-free name parses to a
scalar (zero-dimension) shape. -/
theorem headerParser_shapes (file : String) (b : List Char) (s : List Nat)
    (hb : '[' ∉ b) (hs : ∀ d ∈ s, 1 ≤ d) :
    buildLayout file (cmNames b s) = Except.ok [(b, s)]
    ∧ (∀ r t, (cmEnum s).get? r = some t → cmRank s t = r)
    ∧ (∀ ts : List (List Nat), ts.length ≠ prodDims (shapeOf ts) →
        parseGroup file (b, ts) = Except.error
          (Err.parseError file 0 0 "group size does not match product of dimensions"))
    ∧ (∀ cs : List Char, '[' ∉ cs → parseColName cs = some (cs, []))
    ∧ (∀ p : Nat, (shapeOf (cmEnum s)).getD p 0 =
        ((cmEnum s).map (fun t => t.getD p 0)).foldr max 0) := by
  refine ⟨buildLayout_cmNames file b s hb hs, ?_, ?_, ?_, ?_⟩
  · intro r t ht
    exact cmEnum_rank s r t ht
  · intro ts hts
    rw [parseGroup, if_neg hts]
  · intro cs hcs
    rw [parseColName, if_neg hcs]
  · intro p
    exact shapeOf_getD (cmEnum s) p

theorem headerParser_shapes_witness :
    buildLayout "chain-1.csv" (cmNames ('m' :: ['u']) [4]) =
      Except.ok [(('m' :: ['u']), [4])] :=
  (headerParser_shapes "chain-1.csv" ('m' :: ['u']) [4] (by decide) (by decide)).1

/-- Modelled from the spec: the parsed content of one chain output file. -/
structure ChainCsv where
  fileName : String
  header : List (List Char)
  rows : List (List FVal)
deriving DecidableEq

/-- Modelled from the spec: the 3-D draws structure; data is held per chain,
each chain holding its rows unmodified. -/
structure DrawsArray where
  data : List (List (List FVal))
deriving DecidableEq

/-- Number of chains in a draws array. -/
def DrawsArray.numChains (a : DrawsArray) : Nat := a.data.length

/-- Find the first chain file disagreeing with the representative layout. -/
def findBad (c0 : ChainCsv) : List ChainCsv → Option ChainCsv
  | [] => none
  | c :: cs =>
      if c.header = c0.header ∧ c.rows.length = c0.rows.length then findBad c0 cs
      else some c

/-- Modelled from the spec: the Draws Assembler validates equal column
layout and row count across chains, raising a ConsistencyError naming the
offending file, and otherwise builds the draws array from the chains'
rows unmodified. -/
def assemble : List ChainCsv → Except Err DrawsArray
  | [] => Except.error (Err.consistencyError "" "no chains")
  | c0 :: cs =>
      match findBad c0 cs with
      | some c => Except.error (Err.consistencyError c.fileName "column or row mismatch")
      | none => Except.ok ⟨(c0 :: cs).map (fun c => c.rows)⟩

theorem findBad_eq_none {c0 : ChainCsv} {cs : List ChainCsv}
    (h : ∀ c ∈ cs, c.header = c0.header ∧ c.rows.length = c0.rows.length) :
    findBad c0 cs = none := by
  induction cs with
  | nil => rfl
  | cons c cs ih =>
      rw [findBad, if_pos (h c (List.mem_cons_self c cs))]
      exact ih (fun x hx => h x (List.mem_cons_of_mem c hx))

theorem findBad_finds {c0 : ChainCsv} {cs : List ChainCsv}
    (h : ∃ c ∈ cs, ¬(c.header = c0.header ∧ c.rows.length = c0.rows.length)) :
    ∃ c, findBad c0 cs = some c ∧ c ∈ cs ∧
      ¬(c.header = c0.header ∧ c.rows.length = c0.rows.length) := by
  induction cs with
  | nil =>
      obtain ⟨c, hc, _⟩ := h
      exact absurd hc (List.not_mem_nil c)
  | cons c cs ih =>
      by_cases hc : c.header = c0.header ∧ c.rows.length = c0.rows.length
      · have h2 : ∃ x ∈ cs, ¬(x.header = c0.header ∧ x.rows.length = c0.rows.length) := by
          obtain ⟨x, hx, hxne⟩ := h
          rcases List.mem_cons.mp hx with h1 | h1
          · exact absurd (h1 ▸ hc) hxne
          · exact ⟨x, h1, hxne⟩
        obtain ⟨x, hfind, hmem, hne⟩ := ih h2
        refine ⟨x, ?_, List.mem_cons_of_mem c hmem, hne⟩
        rw [findBad, if_pos hc]
        exact hfind
      · refine ⟨c, ?_, List.mem_cons_self c cs, hc⟩
        rw [findBad, if_neg hc]

theorem findBad_none_all {c0 : ChainCsv} {cs : List ChainCsv}
    (h : findBad c0 cs = none) :
    ∀ c ∈ cs, c.header = c0.header ∧ c.rows.length = c0.rows.length := by
  induction cs with
  | nil => intro c hc; exact absurd hc (List.not_mem_nil c)
  | cons c cs ih =>
      intro x hx
      by_cases hc : c.header = c0.header ∧ c.rows.length = c0.rows.length
      · rw [findBad, if_pos hc] at h
        rcases List.mem_cons.mp hx with h1 | h1
        · exact h1 ▸ hc
        · exact ih h x h1
      · rw [findBad, if_neg hc] at h
        exact absurd h (by simp)

/-- Claim C4: the Draws Assembler raises a ConsistencyError naming an offending
file exactly when some chain file disagrees with the first chain's column
layout or row count; on agreement it succeeds with every chain's rows kept
unmodified (no truncation or realignment), and the layout is identical
across all chains of the RunSet. -/
theorem assembler_consistency (c0 : ChainCsv) (cs : List ChainCsv) :
    ((∀ c ∈ cs, c.header = c0.header ∧ c.rows.length = c0.rows.length) →
      assemble (c0 :: cs) = Except.ok ⟨(c0 :: cs).map (fun c => c.rows)⟩)
    ∧ ((∃ c ∈ cs, c.header ≠ c0.header ∨ c.rows.length ≠ c0.rows.length) →
      ∃ c, c ∈ cs ∧ (c.header ≠ c0.header ∨ c.rows.length ≠ c0.rows.length) ∧
        assemble (c0 :: cs) =
          Except.error (Err.consistencyError c.fileName "column or row mismatch"))
    ∧ (∀ a, assemble (c0 :: cs) = Except.ok a →
        (a.data = (c0 :: cs).map (fun c => c.rows)
          ∧ ∀ c ∈ c0 :: cs, c.header = c0.header)) := by
  refine ⟨?_, ?_, ?_⟩
  · intro h
    rw [assemble, findBad_eq_none h]
  · intro h
    have h2 : ∃ c ∈ cs, ¬(c.header = c0.header ∧ c.rows.length = c0.rows.length) := by
      obtain ⟨c, hc, hne⟩ := h
      refine ⟨c, hc, ?_⟩
      intro hand
      rcases hne with hne | hne
      · exact hne hand.1
      · exact hne hand.2
    obtain ⟨c, hfind, hmem, hne⟩ := findBad_finds h2
    refine ⟨c, hmem, ?_, ?_⟩
    · by_cases hh : c.header = c0.header
      · exact Or.inr (fun hr => hne ⟨hh, hr⟩)
      · exact Or.inl hh
    · rw [assemble, hfind]
  · intro a ha
    rcases hfind : findBad c0 cs with _ | c
    · rw [assemble, hfind] at ha
      injection ha with ha2
      refine ⟨by rw [← ha2], ?_⟩
      intro c hc
      rcases List.mem_cons.mp hc with h1 | h1
      · rw [h1]
      · exact (findBad_none_all hfind c h1).1
    · rw [assemble, hfind] at ha
      exact absurd ha (by simp)

theorem assembler_consistency_witness :
    assemble [ChainCsv.mk "a.csv" [['x']] [[FVal.finite 1]],
        ChainCsv.mk "b.csv" [['x']] [[FVal.finite 2]]] =
      Except.ok ⟨[[[FVal.finite 1]], [[FVal.finite 2]]]⟩ :=
  (assembler_consistency (ChainCsv.mk "a.csv" [['x']] [[FVal.finite 1]])
    [ChainCsv.mk "b.csv" [['x']] [[FVal.finite 2]]]).1 (by decide)

/-- Modelled from the spec: one settled ChainRun of a RunSet: its id, exit
code, captured stderr tail, and the output file it produced. -/
structure ChainOutcome where
  chainId : Nat
  exitCode : Int
  stderrTail : String
  csv : ChainCsv
deriving DecidableEq

/-- The failing chains of a RunSet, each with its captured stderr tail. -/
def failures (rs : List ChainOutcome) : List (Nat × String) :=
  (rs.filter (fun c => decide (c.exitCode ≠ 0))).map (fun c => (c.chainId, c.stderrTail))

/-- Modelled from the spec: after the whole RunSet settles, raise one
aggregate error when any chain failed, enumerating every failing chain id
with its stderr tail; otherwise expose every chain's output. -/
def aggregate (rs : List ChainOutcome) : Except Err (List ChainCsv) :=
  if failures rs = [] then Except.ok (rs.map (fun c => c.csv))
  else Except.error (Err.processFailure (failures rs))

/-- Modelled from the spec: the per-chain result accessor; a successfully
exited chain's output stays individually retrievable. -/
def chainResult (rs : List ChainOutcome) (i : Nat) : Option ChainCsv :=
  (rs.find? (fun c => decide (c.chainId = i ∧ c.exitCode = 0))).map (fun c => c.csv)

/-- Modelled from the spec: the draws accessor of a RunSet result object. -/
def drawsOf (rs : List ChainOutcome) : Except Err DrawsArray := do
  let csvs ← aggregate rs
  assemble csvs

theorem failures_eq_nil {rs : List ChainOutcome}
    (h : ∀ c ∈ rs, c.exitCode = 0) : failures rs = [] := by
  rw [failures]
  rw [List.filter_eq_nil_iff.mpr]
  · rfl
  · intro c hc
    simp [h c hc]

theorem failures_ne_nil {rs : List ChainOutcome} {c : ChainOutcome}
    (hc : c ∈ rs) (hne : c.exitCode ≠ 0) : failures rs ≠ [] := by
  rw [failures]
  intro h
  rw [List.map_eq_nil_iff] at h
  have := List.filter_eq_nil_iff.mp h c hc
  simp [hne] at this

theorem mem_failures_iff (rs : List ChainOutcome) (i : Nat) (t : String) :
    (i, t) ∈ failures rs ↔
      ∃ c ∈ rs, c.chainId = i ∧ c.stderrTail = t ∧ c.exitCode ≠ 0 := by
  rw [failures]
  constructor
  · intro h
    obtain ⟨c, hc, hpair⟩ := List.mem_map.mp h
    obtain ⟨hmem, hfilt⟩ := List.mem_filter.mp hc
    refine ⟨c, hmem, ?_, ?_, by simpa using hfilt⟩
    · exact congrArg Prod.fst hpair
    · exact congrArg Prod.snd hpair
  · intro h
    obtain ⟨c, hmem, hid, htail, hcode⟩ := h
    refine List.mem_map.mpr ⟨c, List.mem_filter.mpr ⟨hmem, by simpa using hcode⟩, ?_⟩
    rw [hid, htail]

theorem chainResult_retrieves {rs : List ChainOutcome}
    (hids : (rs.map (fun c => c.chainId)).Nodup) :
    ∀ c ∈ rs, c.exitCode = 0 → chainResult rs c.chainId = some c.csv := by
  induction rs with
  | nil => intro c hc; exact absurd hc (List.not_mem_nil c)
  | cons c0 rs ih =>
      intro c hc hcode
      simp only [List.map_cons, List.nodup_cons] at hids
      rcases List.mem_cons.mp hc with h1 | h1
      · subst h1
        rw [chainResult, List.find?_cons_of_pos _ (by simp [hcode])]
        rfl
      · have hne : ¬(c0.chainId = c.chainId ∧ c0.exitCode = 0) := by
          intro hand
          exact hids.1 (hand.1 ▸ List.mem_map.mpr ⟨c, h1, rfl⟩)
        rw [chainResult, List.find?_cons_of_neg _ (by simpa using hne)]
        exact ih hids.2 c h1 hcode

/-- Claim C1: after a RunSet settles, an aggregate error is raised iff at least
one chain failed; the error enumerates exactly the failing chain ids with
their stderr tails; every successfully exited chain stays individually
retrievable; and when every chain exits 0 (and the files agree) the draws
array is accessible. -/
theorem orchestrator_aggregation (rs : List ChainOutcome)
    (hids : (rs.map (fun c => c.chainId)).Nodup) :
    ((∀ c ∈ rs, c.exitCode = 0) → aggregate rs = Except.ok (rs.map (fun c => c.csv)))
    ∧ ((∃ c ∈ rs, c.exitCode ≠ 0) →
        aggregate rs = Except.error (Err.processFailure (failures rs))
        ∧ ∀ i t, (i, t) ∈ failures rs ↔
            ∃ c ∈ rs, c.chainId = i ∧ c.stderrTail = t ∧ c.exitCode ≠ 0)
    ∧ (∀ c ∈ rs, c.exitCode = 0 → chainResult rs c.chainId = some c.csv)
    ∧ (∀ c0 rest, rs = c0 :: rest → (∀ c ∈ rs, c.exitCode = 0) →
        (∀ c ∈ rest, c.csv.header = c0.csv.header
          ∧ c.csv.rows.length = c0.csv.rows.length) →
        drawsOf rs = Except.ok ⟨rs.map (fun c => c.csv.rows)⟩) := by
  refine ⟨?_, ?_, chainResult_retrieves hids, ?_⟩
  · intro h
    rw [aggregate, if_pos (failures_eq_nil h)]
  · intro h
    obtain ⟨c, hc, hne⟩ := h
    refine ⟨?_, fun i t => mem_failures_iff rs i t⟩
    rw [aggregate, if_neg (failures_ne_nil hc hne)]
  · intro c0 rest hrs hexit hagree
    subst hrs
    have hagg : aggregate (c0 :: rest) = Except.ok ((c0 :: rest).map (fun c => c.csv)) := by
      rw [aggregate, if_pos (failures_eq_nil hexit)]
    have hasm : assemble ((c0 :: rest).map (fun c => c.csv)) =
        Except.ok ⟨(c0 :: rest).map (fun c => c.csv.rows)⟩ := by
      rw [List.map_cons, assemble, findBad_eq_none (by
        intro x hx
        obtain ⟨c, hc, hcx⟩ := List.mem_map.mp hx
        exact hcx ▸ hagree c hc)]
      simp [List.map_map]
    rw [drawsOf, hagg]
    simpa using hasm

theorem orchestrator_aggregation_witness :
    chainResult [ChainOutcome.mk 1 0 "" (ChainCsv.mk "a.csv" [['x']] [[FVal.finite 1]]),
        ChainOutcome.mk 2 1 "boom" (ChainCsv.mk "b.csv" [['x']] [[FVal.finite 2]])] 1 =
      some (ChainCsv.mk "a.csv" [['x']] [[FVal.finite 1]]) :=
  (orchestrator_aggregation
      [ChainOutcome.mk 1 0 "" (ChainCsv.mk "a.csv" [['x']] [[FVal.finite 1]]),
        ChainOutcome.mk 2 1 "boom" (ChainCsv.mk "b.csv" [['x']] [[FVal.finite 2]])]
      (by decide)).2.2.1
    (ChainOutcome.mk 1 0 "" (ChainCsv.mk "a.csv" [['x']] [[FVal.finite 1]]))
    (by decide) rfl

/-- Modelled from the spec: the mutable state of a result object: the
cached draws structure (uncomputed marker = none) and the number of times
the expensive parse of the per-chain files has run.  Each parse reads every
file once, so a parse count of one means no file is ever re-read. -/
structure FitState where
  cache : Option DrawsArray
  parseCount : Nat
deriving DecidableEq

/-- A fresh result object: nothing parsed yet. -/
def freshFit : FitState := FitState.mk none 0

/-- Modelled from the spec: the guarded-once draws accessor.  The guard
makes the check-and-fill atomic, so a concurrent first access is some
interleaving of these atomic steps. -/
def accessDraws (files : List ChainCsv) (st : FitState) :
    Except Err DrawsArray × FitState :=
  match st.cache with
  | some a => (Except.ok a, st)
  | none =>
      match assemble files with
      | Except.ok a => (Except.ok a, FitState.mk (some a) (st.parseCount + 1))
      | Except.error e => (Except.error e, FitState.mk none (st.parseCount + 1))

/-- A schedule of n accessors, each performing one atomic access in turn;
returns every accessor's observed result and the final state. -/
def accessTrace (files : List ChainCsv) : Nat → FitState →
    List (Except Err DrawsArray) × FitState
  | 0, st => ([], st)
  | n + 1, st =>
      let p := accessDraws files st
      let q := accessTrace files n p.2
      (p.1 :: q.1, q.2)

theorem accessTrace_cached (files : List ChainCsv) (a : DrawsArray) (k : Nat) :
    ∀ n, accessTrace files n (FitState.mk (some a) k) =
      (List.replicate n (Except.ok a), FitState.mk (some a) k) := by
  intro n
  induction n with
  | zero => rfl
  | succ n ih =>
      rw [accessTrace]
      simp only [accessDraws, ih]
      rfl

/-- Claim C2: the draws assembly is lazily memoized and idempotent.  For every
schedule of n ≥ 1 accesses starting from a fresh result object, the
expensive parse runs exactly once (so the files are read once), and every
access returns the identical cached draws array. -/
theorem draws_memoized (files : List ChainCsv) (a : DrawsArray) (n : Nat)
    (hok : assemble files = Except.ok a) (hn : 1 ≤ n) :
    (accessTrace files n freshFit).2 = FitState.mk (some a) 1
    ∧ ∀ r ∈ (accessTrace files n freshFit).1, r = Except.ok a := by
  obtain ⟨m, hm⟩ : ∃ m, n = m + 1 := ⟨n - 1, by omega⟩
  subst hm
  have hfirst : accessDraws files freshFit = (Except.ok a, FitState.mk (some a) 1) := by
    rw [accessDraws]
    simp [freshFit, hok]
  rw [accessTrace]
  simp only [hfirst, accessTrace_cached files a 1 m]
  refine ⟨?_, ?_⟩
  · trivial
  intro r hr
  rcases List.mem_cons.mp hr with h1 | h1
  · exact h1
  · exact List.eq_of_mem_replicate h1

theorem draws_memoized_witness :
    (accessTrace [ChainCsv.mk "a.csv" [['x']] [[FVal.finite 1]]] 3 freshFit).2 =
      FitState.mk (some ⟨[[[FVal.finite 1]]]⟩) 1 :=
  (draws_memoized [ChainCsv.mk "a.csv" [['x']] [[FVal.finite 1]]]
    ⟨[[[FVal.finite 1]]]⟩ 3 rfl (by decide)).1

/-- Modelled from the spec: the state of the bounded worker pool: chains
waiting in the queue, chains currently running, chains finished. -/
structure PoolState where
  pending : List Nat
  running : List Nat
  finished : List Nat
deriving DecidableEq

/-- Admit queued chains while a pool slot is free. -/
def launch (lim : Nat) (s : PoolState) : PoolState :=
  PoolState.mk (s.pending.drop (lim - s.running.length))
    (s.running ++ s.pending.take (lim - s.running.length)) s.finished

/-- Modelled from the spec: the pool starts by admitting at most `lim`
chains and queuing the rest. -/
def poolInit (lim : Nat) (chains : List Nat) : PoolState :=
  launch lim (PoolState.mk chains [] [])

/-- One process-completion event: the chain leaves the running set and the
pool refills from the queue. -/
def poolFinish (lim : Nat) (c : Nat) (s : PoolState) : PoolState :=
  launch lim (PoolState.mk s.pending (s.running.erase c) (c :: s.finished))

/-- The pool state after a sequence of completion events. -/
def poolRun (lim : Nat) (chains : List Nat) (events : List Nat) : PoolState :=
  events.foldl (fun s c => poolFinish lim c s) (poolInit lim chains)

theorem launch_bound {lim : Nat} {s : PoolState} (h : s.running.length ≤ lim) :
    (launch lim s).running.length ≤ lim := by
  simp only [launch, List.length_append, List.length_take]
  omega

theorem poolRun_bound (lim : Nat) (chains : List Nat) (events : List Nat) :
    (poolRun lim chains events).running.length ≤ lim := by
  suffices hgen : ∀ (evs : List Nat) (s : PoolState), s.running.length ≤ lim →
      (evs.foldl (fun s c => poolFinish lim c s) s).running.length ≤ lim by
    refine hgen events (poolInit lim chains) ?_
    exact launch_bound (by simp)
  intro evs
  induction evs with
  | nil => intro s hs; exact hs
  | cons e evs ih =>
      intro s hs
      rw [List.foldl_cons]
      refine ih (poolFinish lim e s) ?_
      refine launch_bound ?_
      calc (s.running.erase e).length ≤ s.running.length := List.length_erase_le _ _
      _ ≤ lim := hs

/-- Claim C5: the bounded worker pool never runs more than `lim` chains at once.
Every reachable state of a run — the initial admission and the state after
every prefix of completion events — keeps the running set within the
parallelism limit, and the chains beyond the limit start out queued. -/
theorem pool_concurrency_bound (lim : Nat) (chains : List Nat) (events : List Nat) :
    (∀ pre suf : List Nat, events = pre ++ suf →
      (poolRun lim chains pre).running.length ≤ lim)
    ∧ (poolInit lim chains).running = chains.take lim
    ∧ (poolInit lim chains).pending = chains.drop lim := by
  refine ⟨fun pre _ _ => poolRun_bound lim chains pre, ?_, ?_⟩
  · simp [poolInit, launch]
  · simp [poolInit, launch]

theorem pool_concurrency_bound_witness :
    (poolRun 2 [1, 2, 3, 4, 5, 6, 7, 8] [1, 2, 3]).running.length ≤ 2 :=
  (pool_concurrency_bound 2 [1, 2, 3, 4, 5, 6, 7, 8] ([1, 2, 3] ++ [4])).1
    [1, 2, 3] [4] rfl

/-- Modelled from the spec: the terminal status of one chain process.
Cancelled is a status of its own, distinct from failed. -/
inductive ChainStatus where
  | running
  | succeeded
  | failed
  | cancelled
deriving DecidableEq

/-- Modelled from the spec: one chain process of a RunSet with its status
and exclusively owned output file. -/
structure Proc where
  chainId : Nat
  status : ChainStatus
  outFile : String
deriving DecidableEq

/-- Cancel one process: a still-running process is terminated and marked
cancelled; settled processes keep their status. -/
def cancelProc (p : Proc) : Proc :=
  Proc.mk p.chainId
    (if p.status = ChainStatus.running then ChainStatus.cancelled else p.status)
    p.outFile

/-- Modelled from the spec: caller-initiated cancellation terminates every
still-running process of the RunSet. -/
def cancelRun (ps : List Proc) : List Proc := ps.map cancelProc

/-- Modelled from the spec: only the output of successfully exited chains
is ever parsed. -/
def parsedFiles (ps : List Proc) : List String :=
  (ps.filter (fun p => decide (p.status = ChainStatus.succeeded))).map (fun p => p.outFile)

/-- Claim C6: mid-run cancellation terminates every still-running chain and marks
it cancelled — a status distinct from failed; settled chains are untouched;
and the output file of a cancelled chain is never parsed. -/
theorem cancellation_semantics (ps : List Proc) :
    (∀ p ∈ cancelRun ps, p.status ≠ ChainStatus.running)
    ∧ (∀ p ∈ ps, p.status = ChainStatus.running →
        (cancelProc p).status = ChainStatus.cancelled)
    ∧ ChainStatus.cancelled ≠ ChainStatus.failed
    ∧ (∀ p ∈ ps, p.status ≠ ChainStatus.running → cancelProc p = p)
    ∧ (∀ f ∈ parsedFiles (cancelRun ps),
        ∃ p ∈ ps, p.outFile = f ∧ p.status = ChainStatus.succeeded)
    ∧ (∀ p ∈ ps, p.status = ChainStatus.running →
        (ps.map (fun q => q.outFile)).Nodup → p.outFile ∉ parsedFiles (cancelRun ps)) := by
  have hstat : ∀ p : Proc, (cancelProc p).status ≠ ChainStatus.running := by
    intro p
    rw [cancelProc]
    by_cases h : p.status = ChainStatus.running
    · simp [h]
    · simp [h]
  have hparse : ∀ f ∈ parsedFiles (cancelRun ps),
      ∃ p ∈ ps, p.outFile = f ∧ p.status = ChainStatus.succeeded := by
    intro f hf
    obtain ⟨q, hq, hqf⟩ := List.mem_map.mp hf
    obtain ⟨hqmem, hqs⟩ := List.mem_filter.mp hq
    obtain ⟨p, hp, hpq⟩ := List.mem_map.mp hqmem
    refine ⟨p, hp, ?_, ?_⟩
    · rw [show p.outFile = q.outFile from by rw [← hpq]; rfl]
      exact hqf
    · have hqstat : q.status = ChainStatus.succeeded := by simpa using hqs
      rw [← hpq] at hqstat
      rw [cancelProc] at hqstat
      by_cases h : p.status = ChainStatus.running
      · rw [if_pos h] at hqstat
        exact absurd hqstat (by simp)
      · rwa [if_neg h] at hqstat
  refine ⟨?_, ?_, by simp, ?_, hparse, ?_⟩
  · intro p hp
    obtain ⟨q, _, hq⟩ := List.mem_map.mp hp
    exact hq ▸ hstat q
  · intro p _ hrun
    rw [cancelProc, if_pos hrun]
  · intro p _ hnotrun
    rw [cancelProc, if_neg hnotrun]
  · intro p hp hrun hnodup hmem
    obtain ⟨p2, hp2, hpf, hps⟩ := hparse p.outFile hmem
    have hpe : p2 = p := List.inj_on_of_nodup_map hnodup hp2 hp hpf
    rw [hpe] at hps
    rw [hps] at hrun
    exact absurd hrun (by decide)

theorem cancellation_semantics_witness :
    (cancelProc (Proc.mk 1 ChainStatus.running "a.csv")).status = ChainStatus.cancelled :=
  (cancellation_semantics [Proc.mk 1 ChainStatus.running "a.csv"]).2.1
    (Proc.mk 1 ChainStatus.running "a.csv") (by decide) rfl

/-- The optional random-string component of a temporary-directory file
name. -/
def randPart : Option (List Char) → List Char
  | none => []
  | some r => '-' :: r

/-- Modelled from the spec: engine output file name: model name, timestamp,
chain id, optional random string, suffix .csv. -/
def csvName (model ts : List Char) (i : Nat) (rand : Option (List Char)) : List Char :=
  model ++ ('-' :: (ts ++ ('-' :: (natLit i ++ (randPart rand ++ ".csv".data)))))

/-- Modelled from the spec: console-log file name: same base, suffix .txt. -/
def txtName (model ts : List Char) (i : Nat) (rand : Option (List Char)) : List Char :=
  model ++ ('-' :: (ts ++ ('-' :: (natLit i ++ (randPart rand ++ "-stdout.txt".data)))))

theorem natLit_inj {i j : Nat} (h : natLit i = natLit j) : i = j := by
  have hi := parseUnsigned_natLit i
  have hj := parseUnsigned_natLit j
  rw [h] at hi
  rw [hi] at hj
  injection hj with h2
  exact_mod_cast h2

theorem name_tail_inj {i j : Nat} {A B S : List Char} (hAB : A.length = B.length)
    (h : natLit i ++ (A ++ S) = natLit j ++ (B ++ S)) : i = j := by
  have hlen : (A ++ S).length = (B ++ S).length := by simp [hAB]
  exact natLit_inj (List.append_inj' h hlen).1

theorem name_body_inj {model ts X Y : List Char}
    (h : model ++ ('-' :: (ts ++ ('-' :: X))) = model ++ ('-' :: (ts ++ ('-' :: Y)))) :
    X = Y := by
  have h1 := List.append_cancel_left h
  injection h1 with _ h2
  have h3 := List.append_cancel_left h2
  injection h3

/-- Claim C9: the Output File Locator is deterministic and collision-free.
Distinct chain ids give distinct output names and distinct console-log
names, with or without the 8-character random string of the temporary
directory; every output name ends in .csv, every console-log name in .txt,
and a temporary-directory name carries its random string. -/
theorem output_locator_names (model ts : List Char) (i j : Nat) (hij : i ≠ j) :
    csvName model ts i none ≠ csvName model ts j none
    ∧ txtName model ts i none ≠ txtName model ts j none
    ∧ (∀ r1 r2 : List Char, r1.length = 8 → r2.length = 8 →
        csvName model ts i (some r1) ≠ csvName model ts j (some r2))
    ∧ (∀ r1 r2 : List Char, r1.length = 8 → r2.length = 8 →
        txtName model ts i (some r1) ≠ txtName model ts j (some r2))
    ∧ (∀ k rand, ∃ p, csvName model ts k rand = p ++ ".csv".data)
    ∧ (∀ k rand, ∃ p, txtName model ts k rand = p ++ ".txt".data)
    ∧ (∀ k (r : List Char), ∃ p q, csvName model ts k (some r) = (p ++ ('-' :: r)) ++ q) := by
  refine ⟨?_, ?_, ?_, ?_, ?_, ?_, ?_⟩
  · intro h
    exact hij (@name_tail_inj i j (randPart none) (randPart none) _ rfl
      (name_body_inj h))
  · intro h
    exact hij (@name_tail_inj i j (randPart none) (randPart none) _ rfl
      (name_body_inj h))
  · intro r1 r2 h1 h2 h
    refine hij (@name_tail_inj i j (randPart (some r1)) (randPart (some r2)) _ ?_
      (name_body_inj h))
    simp [randPart, h1, h2]
  · intro r1 r2 h1 h2 h
    refine hij (@name_tail_inj i j (randPart (some r1)) (randPart (some r2)) _ ?_
      (name_body_inj h))
    simp [randPart, h1, h2]
  · intro k rand
    refine ⟨model ++ ('-' :: (ts ++ ('-' :: (natLit k ++ randPart rand)))), ?_⟩
    simp [csvName]
  · intro k rand
    refine ⟨model ++ ('-' :: (ts ++ ('-' :: (natLit k ++ (randPart rand ++
      "-stdout".data))))), ?_⟩
    rw [txtName]
    simp
  · intro k r
    refine ⟨model ++ ('-' :: (ts ++ ('-' :: natLit k))), ".csv".data, ?_⟩
    simp [csvName, randPart]

theorem output_locator_names_witness :
    csvName ('b' :: []) ('2' :: []) 1 none ≠ csvName ('b' :: []) ('2' :: []) 2 none :=
  (output_locator_names ('b' :: []) ('2' :: []) 1 2 (by decide)).1

/-- Modelled from the spec: the default chain count of the sample
operation. -/
def defaultChainCount : Nat := 4

/-- The effective chain count: the caller's request, or the default. -/
def sampleChainCount (requested : Option Nat) : Nat :=
  requested.getD defaultChainCount

/-- Modelled from the spec: run the sample operation, invoking the external
engine once per chain, chains numbered from 1. -/
def runSample (requested : Option Nat) (engine : Nat → ChainCsv) : List ChainCsv :=
  (List.range (sampleChainCount requested)).map (fun i => engine (i + 1))

theorem assemble_numChains {l : List ChainCsv} {a : DrawsArray}
    (h : assemble l = Except.ok a) : a.numChains = l.length := by
  cases l with
  | nil =>
      rw [assemble] at h
      exact absurd h (by simp)
  | cons c0 cs =>
      rw [assemble] at h
      rcases hf : findBad c0 cs with _ | c
      · rw [hf] at h
        injection h with h2
        rw [← h2]
        simp [DrawsArray.numChains]
      · rw [hf] at h
        exact absurd h (by simp)

/-- Claim C10: when the caller does not specify a chain count, the sample
operation runs exactly 4 chains — the engine is invoked once per chain id
1..4 — and an assembled draws array from that RunSet has 4 as its chain
dimension. -/
theorem sample_default_chains (engine : Nat → ChainCsv) :
    (runSample none engine).length = 4
    ∧ runSample none engine = [engine 1, engine 2, engine 3, engine 4]
    ∧ ∀ a, assemble (runSample none engine) = Except.ok a → a.numChains = 4 := by
  refine ⟨rfl, rfl, ?_⟩
  intro a ha
  have h := assemble_numChains ha
  simpa using h

theorem sample_default_chains_witness :
    DrawsArray.numChains ⟨[[], [], [], []]⟩ = 4 :=
  (sample_default_chains (fun _ => ChainCsv.mk "f.csv" [['x']] [])).2.2
    ⟨[[], [], [], []]⟩ rfl

end CmdStanPy
